import Mathlib

/-!
Shallow embedding of the comic-bubble geometry and text layout engine:
outline path generation and bounding boxes (bubbleUtils), the font-size
fit search (textAutoFit), and the rich-text parsing / line-wrapping step
of drawRichText.  Numbers are modelled as rationals; text measurement is
an explicit deterministic oracle; SVG path strings are modelled as token
sequences (command letters and numeric arguments, separators dropped).
-/

namespace BubbleEditor

/-- Bubble archetypes (the BubbleType enum of the source). -/
inductive BubbleType where
  | SpeechDown
  | SpeechUp
  | SpeechDownMinimal
  | SpeechUpMinimal
  | Whisper
  | Thought
  | Shout
  | Descriptive
  | TextOnly
deriving DecidableEq

/-- A speech-tail part: base centre, base width and tip point. -/
structure SpeechTailPart where
  id : String
  baseCX : ℚ
  baseCY : ℚ
  baseWidth : ℚ
  tipX : ℚ
  tipY : ℚ
deriving DecidableEq

/-- A thought-dot part: offset relative to the bubble origin and diameter. -/
structure ThoughtDotPart where
  id : String
  offsetX : ℚ
  offsetY : ℚ
  size : ℚ
deriving DecidableEq

/-- Parts are a closed tagged variant of tails and dots. -/
inductive BubblePart where
  | speechTail (t : SpeechTailPart)
  | thoughtDot (d : ThoughtDotPart)
deriving DecidableEq

/-- The Bubble record (fields the engine reads). -/
structure Bubble where
  id : String
  type : BubbleType
  x : ℚ
  y : ℚ
  width : ℚ
  height : ℚ
  zIndex : ℤ
  fontFamily : String
  fontSize : ℚ
  textColor : String
  borderColor : String
  text : String
  parts : List BubblePart
deriving DecidableEq

/-- One token of an SVG-style path string: a command letter or a number. -/
inductive PathTok where
  | M
  | L
  | Q
  | A
  | Z
  | num (v : ℚ)
deriving DecidableEq

/-- A decoration circle as surfaced in partsCircles. -/
structure Circle where
  id : String
  cx : ℚ
  cy : ℚ
  r : ℚ
deriving DecidableEq

/-- Result record of generateBubblePaths. -/
structure BubblePaths where
  bodyPath : List PathTok
  partsCircles : List Circle
deriving DecidableEq

/-- Tokens of an `A r,r 0 0 1 x,y` arc command. -/
def arcToks (r x y : ℚ) : List PathTok :=
  [.A, .num r, .num r, .num 0, .num 0, .num 1, .num x, .num y]

/-- Tokens of the tail insert produced by createTailPath.  The source template
reads `L sx,sy Q sx (tipX - sx) 0.25,midY tipX,tipY Q ex (tipX - ex) 0.25,midY ex,ey`,
so each Q is followed by six separate numbers (the control-point arithmetic is
mangled in the source: the factor 0.25 and the differences appear as standalone
path numbers). -/
def createTailPath (sx sy ex ey tipX tipY midY : ℚ) : List PathTok :=
  [.L, .num sx, .num sy,
   .Q, .num sx, .num (tipX - sx), .num 0.25, .num midY, .num tipX, .num tipY,
   .Q, .num ex, .num (tipX - ex), .num 0.25, .num midY, .num ex, .num ey]

/-- Plain rounded-rectangle outline used by the Descriptive / TextOnly /
default branch of generateBubblePaths. -/
def roundedRectToks (w h r : ℚ) : List PathTok :=
  [.M, .num r, .num 0, .L, .num (w - r), .num 0] ++ arcToks r w r ++
  [.L, .num w, .num (h - r)] ++ arcToks r (w - r) h ++
  [.L, .num r, .num h] ++ arcToks r 0 (h - r) ++
  [.L, .num 0, .num r] ++ arcToks r r 0 ++ [.Z]

/-- Rounded rectangle with the bottom edge interrupted by a tail cut. -/
def speechBottomToks (w h r leftBaseX rightBaseX tipX tipY midY : ℚ) : List PathTok :=
  [.M, .num r, .num 0, .L, .num (w - r), .num 0] ++ arcToks r w r ++
  [.L, .num w, .num (h - r)] ++ arcToks r (w - r) h ++
  [.L, .num rightBaseX, .num h] ++
  createTailPath rightBaseX h leftBaseX h tipX tipY midY ++
  [.L, .num r, .num h] ++ arcToks r 0 (h - r) ++
  [.L, .num 0, .num r] ++ arcToks r r 0 ++ [.Z]

/-- Rounded rectangle with the top edge interrupted by a tail cut. -/
def speechTopToks (w h r leftBaseX rightBaseX tipX tipY midY : ℚ) : List PathTok :=
  [.M, .num r, .num 0, .L, .num leftBaseX, .num 0] ++
  createTailPath leftBaseX 0 rightBaseX 0 tipX tipY midY ++
  [.L, .num (w - r), .num 0] ++ arcToks r w r ++
  [.L, .num w, .num (h - r)] ++ arcToks r (w - r) h ++
  [.L, .num r, .num h] ++ arcToks r 0 (h - r) ++
  [.L, .num 0, .num r] ++ arcToks r r 0 ++ [.Z]

/-- `parts.find(p => p.type === 'speech-tail')`. -/
def findSpeechTail : List BubblePart → Option SpeechTailPart
  | [] => none
  | .speechTail t :: _ => some t
  | .thoughtDot _ :: rest => findSpeechTail rest

/-- Body path of the speech / whisper branch of generateBubblePaths.
With no tail part, or a clamped base on neither horizontal edge, the source
leaves bodyPath as the initial empty string. -/
def speechBody (w h r : ℚ) (parts : List BubblePart) : List PathTok :=
  match findSpeechTail parts with
  | none => []
  | some t =>
    let halfBase := t.baseWidth / 2
    let clampedBaseCX := max 0 (min w t.baseCX)
    let clampedBaseCY := max 0 (min h t.baseCY)
    let midY := clampedBaseCY + (t.tipY - clampedBaseCY) * 0.5
    if clampedBaseCY = h then
      let leftBaseX := max r (clampedBaseCX - halfBase)
      let rightBaseX := min (w - r) (clampedBaseCX + halfBase)
      speechBottomToks w h r leftBaseX rightBaseX t.tipX t.tipY midY
    else if clampedBaseCY = 0 then
      let leftBaseX := max r (clampedBaseCX - halfBase)
      let rightBaseX := min (w - r) (clampedBaseCX + halfBase)
      speechTopToks w h r leftBaseX rightBaseX t.tipX t.tipY midY
    else []

/-- Thought-cloud outline.  The source evaluates Math.cos / Math.sin at angles
of the form `t * 2 * pi - pi / 2` with rational `t`; the host trig functions are
abstracted as oracles `tc t = cos (t * 2 * pi - pi / 2)` and
`tsn t = sin (t * 2 * pi - pi / 2)` so that all coordinates stay rational. -/
def thoughtBody (tc tsn : ℚ → ℚ) (w h : ℚ) : List PathTok :=
  let cx := w / 2
  let cy := h / 2
  let rx := w * 0.3
  let ry := h * 0.3
  (List.range 9).foldl
    (fun acc i =>
      let mid : ℚ := (2 * (i : ℚ) + 1) / 18
      let nxt : ℚ := ((i : ℚ) + 1) / 9
      acc ++ [.Q, .num (cx + rx * 1.4 * tc mid), .num (cy + ry * 1.4 * tsn mid),
              .num (cx + rx * tc nxt), .num (cy + ry * tsn nxt)])
    [.M, .num (cx + rx * tc 0), .num (cy + ry * tsn 0)]
  ++ [.Z]

/-- Shout star outline: 28 points alternating between outer and inner ellipse. -/
def shoutBody (tc tsn : ℚ → ℚ) (w h : ℚ) : List PathTok :=
  let cx := w / 2
  let cy := h / 2
  (List.range 28).foldl
    (fun acc i =>
      let currRx := if i % 2 = 0 then w / 2 else w / 3.5
      let currRy := if i % 2 = 0 then h / 2 else h / 3.5
      let px := cx + currRx * tc ((i : ℚ) / 28)
      let py := cy + currRy * tsn ((i : ℚ) / 28)
      acc ++ (if i = 0 then [.M, .num px, .num py] else [.L, .num px, .num py]))
    []
  ++ [.Z]

/-- generateBubblePaths: pure function of the bubble's geometry and parts. -/
def generateBubblePaths (tc tsn : ℚ → ℚ) (bubble : Bubble) : BubblePaths :=
  let w := bubble.width
  let h := bubble.height
  let r : ℚ :=
    if bubble.type = .SpeechDown ∨ bubble.type = .SpeechUp ∨ bubble.type = .Whisper then
      min w h / 2
    else if bubble.type = .Descriptive then 5
    else 20
  if bubble.type = .SpeechDown ∨ bubble.type = .SpeechUp ∨ bubble.type = .Whisper then
    { bodyPath := speechBody w h r bubble.parts, partsCircles := [] }
  else if bubble.type = .Thought then
    { bodyPath := thoughtBody tc tsn w h,
      partsCircles := bubble.parts.filterMap (fun p =>
        match p with
        | .thoughtDot d => some ⟨d.id, d.offsetX, d.offsetY, d.size / 2⟩
        | .speechTail _ => none) }
  else if bubble.type = .Shout then
    { bodyPath := shoutBody tc tsn w h, partsCircles := [] }
  else
    { bodyPath := roundedRectToks w h r, partsCircles := [] }

/-- The bounding rectangle returned by getOverallBbox. -/
structure Bbox where
  x : ℚ
  y : ℚ
  width : ℚ
  height : ℚ
deriving DecidableEq

/-- Running extent while folding over the parts. -/
structure Extent where
  minX : ℚ
  maxX : ℚ
  minY : ℚ
  maxY : ℚ
deriving DecidableEq

/-- One step of the parts.forEach extent accumulation of getOverallBbox. -/
def partExtend (e : Extent) : BubblePart → Extent
  | .speechTail t =>
    ⟨min e.minX t.tipX, max e.maxX t.tipX, min e.minY t.tipY, max e.maxY t.tipY⟩
  | .thoughtDot d =>
    ⟨min e.minX (d.offsetX - d.size / 2), max e.maxX (d.offsetX + d.size / 2),
     min e.minY (d.offsetY - d.size / 2), max e.maxY (d.offsetY + d.size / 2)⟩

/-- getOverallBbox: extent of the base rectangle, tail tips and dot circles,
with the source's padding arithmetic reproduced verbatim
(`x = minX - 10`, `width = maxX + 10 - minX`, and likewise vertically). -/
def getOverallBbox (bubble : Bubble) : Bbox :=
  let e := bubble.parts.foldl partExtend ⟨0, bubble.width, 0, bubble.height⟩
  ⟨e.minX - 10, e.minY - 10, e.maxX + 10 - e.minX, e.maxY + 10 - e.minY⟩

/-- Argument-count check over a path token list: every command letter must be
followed by exactly its number of numeric arguments (M/L two, Q four, A seven,
Z none).  The fold state is the count of numbers still owed, `none` on error. -/
def pathStep : Option ℕ → PathTok → Option ℕ
  | none, _ => none
  | some (n + 1), .num _ => some n
  | some (_ + 1), _ => none
  | some 0, .M => some 2
  | some 0, .L => some 2
  | some 0, .Q => some 4
  | some 0, .A => some 7
  | some 0, .Z => some 0
  | some 0, .num _ => none

/-- A token list is balanced when the fold ends cleanly with no arguments owed. -/
def pathBalanced (l : List PathTok) : Bool :=
  decide (l.foldl pathStep (some 0) = some 0)

/-- Valid path per the spec: starts with an M command, ends with Z, balanced. -/
def validPath (l : List PathTok) : Bool :=
  pathBalanced l &&
  (match l.head? with
   | some .M => true
   | _ => false) &&
  (match l.getLast? with
   | some .Z => true
   | _ => false)

/-! Text auto-fit (textAutoFit.ts).  The 2D canvas measurement context is
modelled as an always-available deterministic oracle
`MeasureOracle : fontFamily -> fontSize -> text -> width`. -/

/-- Safe-zone factors per archetype (the SAFE_TEXT_ZONES record). -/
structure Zone where
  widthFactor : ℚ
  heightFactor : ℚ
deriving DecidableEq

/-- The SAFE_TEXT_ZONES table. -/
def SAFE_TEXT_ZONES : BubbleType → Zone
  | .Shout => ⟨0.5, 0.55⟩
  | .Thought => ⟨0.5, 0.65⟩
  | .SpeechDown => ⟨0.83, 0.83⟩
  | .SpeechUp => ⟨0.83, 0.83⟩
  | .SpeechDownMinimal => ⟨0.83, 0.83⟩
  | .SpeechUpMinimal => ⟨0.83, 0.83⟩
  | .Whisper => ⟨0.8, 0.8⟩
  | .Descriptive => ⟨0.9, 0.85⟩
  | .TextOnly => ⟨0.95, 0.9⟩

/-- The rectangle returned by getTextBounds (field order as in the source). -/
structure TextBounds where
  width : ℚ
  height : ℚ
  x : ℚ
  y : ℚ
deriving DecidableEq

/-- getTextBounds: fractional safe zone for Shout and Thought only; every
other archetype gets the fixed-padding near-full rectangle. -/
def getTextBounds (bubble : Bubble) : TextBounds :=
  if bubble.type = .Shout ∨ bubble.type = .Thought then
    let safeZone := SAFE_TEXT_ZONES bubble.type
    let textWidth := bubble.width * safeZone.widthFactor
    let textHeight := bubble.height * safeZone.heightFactor
    ⟨textWidth, textHeight, (bubble.width - textWidth) / 2, (bubble.height - textHeight) / 2⟩
  else
    ⟨bubble.width - 10 * 2, bubble.height - 10 * 2, 10, 10⟩

/-- Deterministic text-measurement oracle: font family, font size, text. -/
def MeasureOracle : Type := String → ℚ → String → ℚ

/-- Drop `<...>` tag spans, as `replace(/<[^>]*>/g, '')` does: from each `<`
the characters up to and including the next `>` are removed; a `<` with no
later `>` is kept (the regex cannot match there).  Fuel-driven scan; the fuel
is always sufficient for the initial call. -/
def stripTagsAux : ℕ → List Char → List Char
  | 0, cs => cs
  | _ + 1, [] => []
  | fuel + 1, c :: cs =>
    if c = '<' then
      match cs.dropWhile (fun d => decide (d ≠ '>')) with
      | [] => c :: cs
      | _ :: rest => stripTagsAux fuel rest
    else c :: stripTagsAux fuel cs

/-- `text.replace(/<[^>]*>/g, '')`. -/
def stripTags (s : String) : String :=
  String.mk (stripTagsAux (s.length + 1) s.toList)

/-- Splitting on runs of whitespace, `split(/\s+/)` style: boundary separators
produce empty fragments (so " a" gives ["", "a"] and "" gives [""]).  The mode
flag is true while inside a separator run. -/
def splitWsAux : Bool → List Char → List Char → List String
  | _, [], acc => [String.mk acc.reverse]
  | false, c :: cs, acc =>
    if c.isWhitespace then String.mk acc.reverse :: splitWsAux true cs []
    else splitWsAux false cs (c :: acc)
  | true, c :: cs, acc =>
    if c.isWhitespace then splitWsAux true cs acc
    else splitWsAux false cs (c :: acc)

/-- `s.split(/\s+/)`. -/
def splitWs (s : String) : List String :=
  splitWsAux false s.toList []

/-- The candidate line of the greedy wrap: the current line extended by a
space and the word, or the bare word when the current line is empty. -/
def testLineOf (cur word : String) : String :=
  if cur ≠ "" then cur ++ " " ++ word else word

/-- One step of the greedy wrap of measureText: state is (completed lines,
current line string). -/
def greedyStep (m1 : String → ℚ) (maxWidth : ℚ) (st : List String × String)
    (word : String) : List String × String :=
  if maxWidth < m1 (testLineOf st.2 word) then
    ((if st.2 ≠ "" then st.1 ++ [st.2] else st.1), word)
  else
    (st.1, testLineOf st.2 word)

/-- The greedy wrap of measureText: fold the words, then flush the last line. -/
def greedyLines (m1 : String → ℚ) (maxWidth : ℚ) (words : List String) : List String :=
  let st := words.foldl (greedyStep m1 maxWidth) ([], "")
  if st.2 ≠ "" then st.1 ++ [st.2] else st.1

/-- Result of measureText.  `width` is `Math.max` over the measured line
widths, which is minus infinity — encoded as `none` — when no line exists. -/
structure MeasureResult where
  width : Option ℚ
  height : ℚ
  lines : ℕ
deriving DecidableEq

/-- `Math.max(...)` over a list of rationals, `none` for the empty list. -/
def jsMaxQ : List ℚ → Option ℚ
  | [] => none
  | x :: xs =>
    match jsMaxQ xs with
    | none => some x
    | some y => some (max x y)

/-- `u <= b` where `u` may be the minus-infinity of an empty `Math.max`. -/
def optLeQ : Option ℚ → ℚ → Bool
  | none, _ => true
  | some a, b => decide (a ≤ b)

/-- `u > b` for the same extended value. -/
def optGtQ : Option ℚ → ℚ → Bool
  | none, _ => false
  | some a, b => decide (b < a)

/-- measureText: strip tags, split into words, wrap greedily against
maxWidth, then report max line width, total height and line count. -/
def measureText (m : MeasureOracle) (text fontFamily : String)
    (fontSize maxWidth : ℚ) : MeasureResult :=
  let m1 := m fontFamily fontSize
  let words := splitWs (stripTags text)
  let lines := greedyLines m1 maxWidth words
  { width := jsMaxQ (lines.map m1),
    height := (lines.length : ℚ) * (fontSize * 1.4),
    lines := lines.length }

/-- The fit test of the search loop: height and width both inside bounds. -/
def fitCheck (bounds : TextBounds) (d : MeasureResult) : Bool :=
  decide (d.height ≤ bounds.height) && optLeQ d.width bounds.width

/-- The while loop of calculateOptimalFontSize, fuelled by the iteration cap:
try the current size, else decrement (clamped at minFontSize) and recurse. -/
def calcLoop (m : MeasureOracle) (text fontFamily : String) (bounds : TextBounds)
    (minFontSize : ℚ) : ℚ → ℕ → Option ℚ
  | _, 0 => none
  | fs, fuel + 1 =>
    if minFontSize ≤ fs then
      if fitCheck bounds (measureText m text fontFamily fs bounds.width) then some fs
      else calcLoop m text fontFamily bounds minFontSize (max minFontSize (fs - 1)) fuel
    else none

/-- Result record of calculateOptimalFontSize. -/
structure TextFitResult where
  fontSize : ℚ
  textWidth : Option ℚ
  textHeight : ℚ
  fits : Bool
  scaleFactor : ℚ
deriving DecidableEq

/-- calculateOptimalFontSize: shrink from min(bubble.fontSize, maxFontSize)
until the measured block fits, within 20 iterations; otherwise fall back to
minFontSize, where only the measured height is compared for the fits flag. -/
def calculateOptimalFontSize (m : MeasureOracle) (text : String) (bubble : Bubble)
    (fontFamily : String) (minFontSize maxFontSize : ℚ) : TextFitResult :=
  let bounds := getTextBounds bubble
  let target := bubble.fontSize
  match calcLoop m text fontFamily bounds minFontSize (min target maxFontSize) 20 with
  | some fs =>
    let d := measureText m text fontFamily fs bounds.width
    ⟨fs, d.width, d.height, true, fs / target⟩
  | none =>
    let d := measureText m text fontFamily minFontSize bounds.width
    ⟨minFontSize, d.width, d.height, decide (d.height ≤ bounds.height), minFontSize / target⟩

/-- detectTextOverflow: the fit test evaluated once at the current size. -/
def detectTextOverflow (m : MeasureOracle) (text : String) (bubble : Bubble)
    (fontFamily : String) : Bool :=
  let bounds := getTextBounds bubble
  let d := measureText m text fontFamily bubble.fontSize bounds.width
  decide (bounds.height < d.height) || optGtQ d.width bounds.width

/-- autoFitBubbleText: skip TextOnly bubbles, empty text and the placeholder;
otherwise recompute the size with bounds 8..40 and write it onto a copy only
when it differs. -/
def autoFitBubbleText (m : MeasureOracle) (bubble : Bubble) (fontFamily : String) : Bubble :=
  if bubble.type = .TextOnly ∨ bubble.text = "" ∨ bubble.text = "Votre texte ici" then bubble
  else
    let result := calculateOptimalFontSize m bubble.text bubble fontFamily 8 40
    if result.fontSize = bubble.fontSize then bubble
    else { bubble with fontSize := result.fontSize }

/-! Rich-text parsing and line wrapping (the pure fragment of drawRichText).
The canvas context is modelled by a measurement oracle
`ctx.measureText : font-string -> text -> width` together with the current
font string, which the source sets only during the per-segment measuring
pass, so the word measurements of the wrap loop use the font of the last
nonempty segment. -/

/-- Run-level text style. -/
structure TextStyle where
  fontFamily : String
  fontSize : ℚ
  textColor : String
  isBold : Bool
  isItalic : Bool
  isUnderline : Bool
  isStrikethrough : Bool
deriving DecidableEq

/-- A style-tagged text segment with its measured extent. -/
structure TextSegment where
  text : String
  style : TextStyle
  width : ℚ
  height : ℚ
deriving DecidableEq

/-- One wrapped output line. -/
structure TextLine where
  segments : List TextSegment
  width : ℚ
  height : ℚ
deriving DecidableEq

/-- Recognise a `<br>` / `<br/>` / `<br   />` tag (case-insensitive) at the
head of the character list; on success return the characters after it. -/
def brTail : List Char → Option (List Char)
  | [] => none
  | c :: rest =>
    if c.isWhitespace then brTail rest
    else if c = '/' then
      match rest with
      | '>' :: r2 => some r2
      | _ => none
    else if c = '>' then some rest
    else none

/-- Match the whole br tag, `<` then `b`/`B` then `r`/`R` then `brTail`. -/
def matchBr : List Char → Option (List Char)
  | '<' :: b :: r :: rest =>
    if (b = 'b' ∨ b = 'B') ∧ (r = 'r' ∨ r = 'R') then brTail rest else none
  | _ => none

/-- `html.split(/<br\s*\/?>/gi)`: leftmost non-overlapping br tags split the
string.  Fuel-driven scan; the fuel is always sufficient for the initial call. -/
def splitBrAux : ℕ → List Char → List Char → List String
  | 0, cs, acc => [String.mk (acc.reverse ++ cs)]
  | _ + 1, [], acc => [String.mk acc.reverse]
  | fuel + 1, c :: cs, acc =>
    match matchBr (c :: cs) with
    | some rest => String.mk acc.reverse :: splitBrAux fuel rest []
    | none => splitBrAux fuel cs (c :: acc)

/-- `html.split(/<br\s*\/?>/gi)`. -/
def splitBr (s : String) : List String :=
  splitBrAux (s.length + 1) s.toList []

/-- JavaScript `String.prototype.trim`: strip whitespace from both ends. -/
def jsTrim (s : String) : String :=
  String.mk (((s.toList.dropWhile Char.isWhitespace).reverse.dropWhile
    Char.isWhitespace).reverse)

/-- Segments contributed by one fragment between br tags: a plain-text
segment when the fragment trims and strips to something nonempty. -/
def parseSegOf (defaultStyle : TextStyle) (lineHtml : String) : List TextSegment :=
  if jsTrim lineHtml ≠ "" then
    let plainText := stripTags lineHtml
    if plainText ≠ "" then [⟨plainText, defaultStyle, 0, 0⟩] else []
  else []

/-- Fragments joined with explicit newline-marker segments between
consecutive fragments (none after the last one). -/
def parseLinesAux (defaultStyle : TextStyle) : List String → List TextSegment
  | [] => []
  | [l] => parseSegOf defaultStyle l
  | l :: l2 :: rest =>
    parseSegOf defaultStyle l ++ [⟨"\n", defaultStyle, 0, 0⟩] ++
    parseLinesAux defaultStyle (l2 :: rest)

/-- parseRichText: split on br tags, strip remaining tags, insert markers. -/
def parseRichText (html : String) (defaultStyle : TextStyle) : List TextSegment :=
  parseLinesAux defaultStyle (splitBr html)

/-- The `ctx.font` string assembled for a style: italic and bold flags, the
size with a px suffix, and the mapped family with an Arial fallback when the
mapped name has no comma. -/
def fontStrOf (fontMap : String → Option String) (st : TextStyle) : String :=
  let fontName0 := (fontMap st.fontFamily).getD st.fontFamily
  let fontName := if fontName0.contains ',' then fontName0 else fontName0 ++ ", Arial"
  (if st.isItalic then "italic " else "") ++ (if st.isBold then "bold " else "") ++
  toString st.fontSize ++ "px " ++ fontName

/-- The per-segment measuring pass: skip empty texts, otherwise set the
context font from the segment style and record measured width and height.
Returns the measured segments and the final context font. -/
def measureSegs (mc : String → String → ℚ) (fontMap : String → Option String)
    (segs : List TextSegment) (font0 : String) : List TextSegment × String :=
  segs.foldl
    (fun st seg =>
      if seg.text = "" then (st.1 ++ [seg], st.2)
      else
        let f := fontStrOf fontMap seg.style
        (st.1 ++ [{ seg with width := mc f seg.text, height := seg.style.fontSize }], f))
    ([], font0)

/-- State of the wrap loop: output lines, accumulator line, vertical cursor. -/
structure WrapState where
  lines : List TextLine
  cur : TextLine
  curY : ℚ
deriving DecidableEq

/-- The freshly reset accumulator line. -/
def emptyLine : TextLine := ⟨[], 0, 0⟩

/-- JavaScript `a || b` on numbers (zero is falsy). -/
def jsOrQ (a b : ℚ) : ℚ := if a = 0 then b else a

/-- Processing of one word in the wrap loop.  When the word would overflow
the available width and the line is nonempty, the line is closed and the
cursor advances by the height of the freshly reset line or-else the default
font size (the source reads `currentLine.height` after the reset). -/
def wrapWord (mc : String → String → ℚ) (ctxFont : String) (width : ℚ)
    (widthAt : Option (ℚ → ℚ)) (defaultFontSize : ℚ) (style : TextStyle)
    (segHeight : ℚ) (st : WrapState) (word : String) : WrapState :=
  let wordWidth := mc ctxFont (word ++ " ")
  let maxLineWidth :=
    match widthAt with
    | some f => f st.curY
    | none => width
  let st1 :=
    if maxLineWidth < st.cur.width + wordWidth ∧ st.cur.segments ≠ [] then
      { lines := st.lines ++ [st.cur], cur := emptyLine,
        curY := st.curY + jsOrQ emptyLine.height defaultFontSize }
    else st
  { st1 with
    cur := ⟨st1.cur.segments ++ [⟨word, style, wordWidth, segHeight⟩],
            st1.cur.width + wordWidth,
            max st1.cur.height segHeight⟩ }

/-- The wrap loop over segments.  A newline-marker segment pushes the
current line and then exits the whole procedure (the source executes a
`return` statement inside the `for...of` loop), discarding the remaining
segments. -/
def wrapSegsAux (mc : String → String → ℚ) (ctxFont : String) (width : ℚ)
    (widthAt : Option (ℚ → ℚ)) (defaultFontSize : ℚ) :
    List TextSegment → WrapState → List TextLine
  | [], st => if st.cur.segments ≠ [] then st.lines ++ [st.cur] else st.lines
  | seg :: rest, st =>
    if seg.text = "\n" then st.lines ++ [st.cur]
    else
      wrapSegsAux mc ctxFont width widthAt defaultFontSize rest
        ((splitWs seg.text).foldl
          (wrapWord mc ctxFont width widthAt defaultFontSize seg.style seg.height) st)

/-- The line-wrapping step of drawRichText on already-measured segments. -/
def wrapSegments (mc : String → String → ℚ) (ctxFont : String) (width : ℚ)
    (widthAt : Option (ℚ → ℚ)) (defaultStyle : TextStyle)
    (segs : List TextSegment) : List TextLine :=
  wrapSegsAux mc ctxFont width widthAt defaultStyle.fontSize segs ⟨[], emptyLine, 0⟩

/-- The pure pipeline of drawRichText up to and including wrapping:
parse, measure each segment, wrap.  `font0` is the ambient context font
before the call. -/
def drawRichTextLines (mc : String → String → ℚ) (fontMap : String → Option String)
    (font0 : String) (html : String) (width : ℚ) (widthAt : Option (ℚ → ℚ))
    (defaultStyle : TextStyle) : List TextLine :=
  let ms := measureSegs mc fontMap (parseRichText html defaultStyle) font0
  wrapSegments mc ms.2 width widthAt defaultStyle ms.1

/-- All word texts of the wrapped output, in order. -/
def lineWords (lines : List TextLine) : List String :=
  (lines.map (fun l => l.segments.map (fun s => s.text))).flatten

/-- Reference wrap step following claim C7 as stated: on overflow the
cursor advances by the height of the line that was just closed. -/
def wrapWordClosedHeight (mc : String → String → ℚ) (ctxFont : String) (width : ℚ)
    (widthAt : Option (ℚ → ℚ)) (defaultFontSize : ℚ) (style : TextStyle)
    (segHeight : ℚ) (st : WrapState) (word : String) : WrapState :=
  let wordWidth := mc ctxFont (word ++ " ")
  let maxLineWidth :=
    match widthAt with
    | some f => f st.curY
    | none => width
  let st1 :=
    if maxLineWidth < st.cur.width + wordWidth ∧ st.cur.segments ≠ [] then
      { lines := st.lines ++ [st.cur], cur := emptyLine, curY := st.curY + st.cur.height }
    else st
  { st1 with
    cur := ⟨st1.cur.segments ++ [⟨word, style, wordWidth, segHeight⟩],
            st1.cur.width + wordWidth,
            max st1.cur.height segHeight⟩ }

/-- Reference wrap following claim C7 as stated (closed-line-height advance). -/
def wrapSegsClosedHeightAux (mc : String → String → ℚ) (ctxFont : String) (width : ℚ)
    (widthAt : Option (ℚ → ℚ)) (defaultFontSize : ℚ) :
    List TextSegment → WrapState → List TextLine
  | [], st => if st.cur.segments ≠ [] then st.lines ++ [st.cur] else st.lines
  | seg :: rest, st =>
    if seg.text = "\n" then st.lines ++ [st.cur]
    else
      wrapSegsClosedHeightAux mc ctxFont width widthAt defaultFontSize rest
        ((splitWs seg.text).foldl
          (wrapWordClosedHeight mc ctxFont width widthAt defaultFontSize seg.style seg.height) st)

/-- Claim C7 as stated, packaged as a wrap function. -/
def wrapSegmentsClosedHeight (mc : String → String → ℚ) (ctxFont : String) (width : ℚ)
    (widthAt : Option (ℚ → ℚ)) (defaultStyle : TextStyle)
    (segs : List TextSegment) : List TextLine :=
  wrapSegsClosedHeightAux mc ctxFont width widthAt defaultStyle.fontSize segs ⟨[], emptyLine, 0⟩

/-- Amended wrap step: on overflow the cursor advances by the default style's
font size, written directly. -/
def wrapWordDefaultAdvance (mc : String → String → ℚ) (ctxFont : String) (width : ℚ)
    (widthAt : Option (ℚ → ℚ)) (defaultFontSize : ℚ) (style : TextStyle)
    (segHeight : ℚ) (st : WrapState) (word : String) : WrapState :=
  let wordWidth := mc ctxFont (word ++ " ")
  let maxLineWidth :=
    match widthAt with
    | some f => f st.curY
    | none => width
  let st1 :=
    if maxLineWidth < st.cur.width + wordWidth ∧ st.cur.segments ≠ [] then
      { lines := st.lines ++ [st.cur], cur := emptyLine, curY := st.curY + defaultFontSize }
    else st
  { st1 with
    cur := ⟨st1.cur.segments ++ [⟨word, style, wordWidth, segHeight⟩],
            st1.cur.width + wordWidth,
            max st1.cur.height segHeight⟩ }

/-- Amended reference wrap (default-font-size advance at every close). -/
def wrapSegsDefaultAdvanceAux (mc : String → String → ℚ) (ctxFont : String) (width : ℚ)
    (widthAt : Option (ℚ → ℚ)) (defaultFontSize : ℚ) :
    List TextSegment → WrapState → List TextLine
  | [], st => if st.cur.segments ≠ [] then st.lines ++ [st.cur] else st.lines
  | seg :: rest, st =>
    if seg.text = "\n" then st.lines ++ [st.cur]
    else
      wrapSegsDefaultAdvanceAux mc ctxFont width widthAt defaultFontSize rest
        ((splitWs seg.text).foldl
          (wrapWordDefaultAdvance mc ctxFont width widthAt defaultFontSize seg.style seg.height) st)

/-- The amended claim C7, packaged as a wrap function. -/
def wrapSegmentsDefaultAdvance (mc : String → String → ℚ) (ctxFont : String) (width : ℚ)
    (widthAt : Option (ℚ → ℚ)) (defaultStyle : TextStyle)
    (segs : List TextSegment) : List TextLine :=
  wrapSegsDefaultAdvanceAux mc ctxFont width widthAt defaultStyle.fontSize segs ⟨[], emptyLine, 0⟩

/-! Concrete instances used by the evaluation theorems. -/

/-- A stand-in trig oracle for concrete instantiations (never reached by the
branches under evaluation). -/
def trigZero : ℚ → ℚ := fun _ => 0

/-- A speech bubble with no parts at all. -/
def noTailSpeechBubble : Bubble :=
  ⟨"b1", .SpeechDown, 0, 0, 100, 80, 1, "Arial", 16, "#000", "#000", "hi", []⟩

/-- A speech bubble whose tail base is clamped to the interior (neither the
top nor the bottom edge). -/
def midTailSpeechBubble : Bubble :=
  ⟨"b1m", .SpeechDown, 0, 0, 100, 80, 1, "Arial", 16, "#000", "#000", "hi",
   [.speechTail ⟨"tm", 50, 40, 20, 150, 40⟩]⟩

/-- The worked example of the spec: tail base centre (100,100), width 40,
tip (80,160). -/
def exTail : SpeechTailPart := ⟨"t1", 100, 100, 40, 80, 160⟩

/-- The worked example of the spec: SpeechDown, 200 by 100, with exTail. -/
def exBubble : Bubble :=
  ⟨"b2", .SpeechDown, 0, 0, 200, 100, 1, "Arial", 16, "#000", "#000", "hi",
   [.speechTail exTail]⟩

/-- The token sequence generateBubblePaths produces for exBubble: the bottom
edge is interrupted at x = 120 and resumes at x = 80 (clamped into
[r, width - r] = [50, 150]), and each Q carries six numbers. -/
def exToks : List PathTok :=
  [.M, .num 50, .num 0, .L, .num 150, .num 0,
   .A, .num 50, .num 50, .num 0, .num 0, .num 1, .num 200, .num 50,
   .L, .num 200, .num 50,
   .A, .num 50, .num 50, .num 0, .num 0, .num 1, .num 150, .num 100,
   .L, .num 120, .num 100,
   .L, .num 120, .num 100,
   .Q, .num 120, .num (-40), .num 0.25, .num 130, .num 80, .num 160,
   .Q, .num 80, .num 0, .num 0.25, .num 130, .num 80, .num 100,
   .L, .num 50, .num 100,
   .A, .num 50, .num 50, .num 0, .num 0, .num 1, .num 0, .num 50,
   .L, .num 0, .num 50,
   .A, .num 50, .num 50, .num 0, .num 0, .num 1, .num 50, .num 0,
   .Z]

/-- The body path generated for the worked example, computed once. -/
theorem exBubble_bodyPath (tc tsn : ℚ → ℚ) :
    (generateBubblePaths tc tsn exBubble).bodyPath = exToks := by
  norm_num [generateBubblePaths, speechBody, findSpeechTail, exBubble, exTail,
    speechBottomToks, createTailPath, arcToks, exToks, min_def, max_def]

/-- The bounding box of the worked example, computed once. -/
theorem exBubble_bbox : getOverallBbox exBubble = ⟨-10, -10, 210, 170⟩ := by
  norm_num [getOverallBbox, exBubble, exTail, partExtend, min_def, max_def]

/-- A square speech bubble whose tail tip protrudes 60 units below the body. -/
def protrudingTailPart : SpeechTailPart := ⟨"t2", 50, 100, 20, 50, 160⟩

/-- Bubble for the bounding-box counterexample. -/
def protrudingTailBubble : Bubble :=
  ⟨"b3", .SpeechDown, 0, 0, 100, 100, 1, "Arial", 16, "#000", "#000", "hi",
   [.speechTail protrudingTailPart]⟩

/-- A 100 by 100 speech bubble for the safe-zone computation. -/
def squareSpeechBubble : Bubble :=
  ⟨"b6", .SpeechDown, 0, 0, 100, 100, 1, "Arial", 16, "#000", "#000", "hi", []⟩

/-- A Shout bubble carrying a thought-dot part. -/
def shoutWithDotBubble : Bubble :=
  ⟨"b10", .Shout, 0, 0, 100, 100, 1, "Arial", 16, "#000", "#000", "hi",
   [.thoughtDot ⟨"d1", 120, 120, 14⟩]⟩

/-- Default style used in the wrapping evaluations. -/
def dsArial16 : TextStyle := ⟨"Arial", 16, "#000", false, false, false, false⟩

/-- Constant-width measurement context for the newline evaluation. -/
def mcConst10 : String → String → ℚ := fun _ _ => 10

/-- A run style with font size 30 (larger than the default style's 12). -/
def styleSize30 : TextStyle := ⟨"Arial", 30, "#000", false, false, false, false⟩

/-- Default style of size 12 for the cursor-advance evaluation. -/
def dsArial12 : TextStyle := ⟨"Arial", 12, "#000", false, false, false, false⟩

/-- A measured segment of three words in the size-30 style. -/
def segThreeWords : TextSegment := ⟨"aa bb cc", styleSize30, 0, 30⟩

/-- Every word (with its trailing space) measures 60 units wide. -/
def mcConst60 : String → String → ℚ := fun _ _ => 60

/-- Available width 100 near the top, 200 from vertical position 20 on. -/
def widthAtStep : ℚ → ℚ := fun y => if y < 20 then 100 else 200

/-! Extent-fold helper lemmas for the bounding box. -/

/-- One part-extension step only widens the extent. -/
theorem partExtend_le (e : Extent) (p : BubblePart) :
    (partExtend e p).minX ≤ e.minX ∧ e.maxX ≤ (partExtend e p).maxX ∧
    (partExtend e p).minY ≤ e.minY ∧ e.maxY ≤ (partExtend e p).maxY := by
  cases p <;>
    exact ⟨min_le_left _ _, le_max_left _ _, min_le_left _ _, le_max_left _ _⟩

/-- Folding part extensions only widens the extent. -/
theorem foldl_partExtend_le (l : List BubblePart) (e : Extent) :
    (l.foldl partExtend e).minX ≤ e.minX ∧ e.maxX ≤ (l.foldl partExtend e).maxX ∧
    (l.foldl partExtend e).minY ≤ e.minY ∧ e.maxY ≤ (l.foldl partExtend e).maxY := by
  induction l generalizing e with
  | nil => exact ⟨le_refl _, le_refl _, le_refl _, le_refl _⟩
  | cons p rest ih =>
    have h1 := partExtend_le e p
    have h2 := ih (partExtend e p)
    exact ⟨h2.1.trans h1.1, h1.2.1.trans h2.2.1, h2.2.2.1.trans h1.2.2.1,
      h1.2.2.2.trans h2.2.2.2⟩

/-- The folded extent covers the tip of every tail part in the list. -/
theorem foldl_partExtend_covers_tip (l : List BubblePart) (e : Extent)
    (t : SpeechTailPart) (hmem : BubblePart.speechTail t ∈ l) :
    (l.foldl partExtend e).minX ≤ t.tipX ∧ t.tipX ≤ (l.foldl partExtend e).maxX ∧
    (l.foldl partExtend e).minY ≤ t.tipY ∧ t.tipY ≤ (l.foldl partExtend e).maxY := by
  induction l generalizing e with
  | nil => cases hmem
  | cons p rest ih =>
    rcases List.mem_cons.mp hmem with hp | hp
    · subst hp
      have h2 := foldl_partExtend_le rest (partExtend e (.speechTail t))
      refine ⟨h2.1.trans (min_le_right _ _), (le_max_right _ _).trans h2.2.1,
        h2.2.2.1.trans (min_le_right _ _), (le_max_right _ _).trans h2.2.2.2⟩
    · exact ih (partExtend e p) hp

/-! Claim theorems. -/

/-- C1: the claim that generateBubblePaths always returns a well-formed
nonempty path fails, and the source is at fault: a speech-family bubble
with no tail part (or with a tail whose clamped base lies on neither
horizontal edge) yields an empty body path, contradicting the documented
rounded-rectangle fallback, and when a bottom tail is present the emitted
Q commands carry six numeric arguments instead of four, so the path is not
syntactically balanced. -/
theorem generateBubblePaths_degenerate_empty_and_malformed :
    ∀ tc tsn : ℚ → ℚ,
      (generateBubblePaths tc tsn noTailSpeechBubble).bodyPath = [] ∧
      (generateBubblePaths tc tsn midTailSpeechBubble).bodyPath = [] ∧
      validPath (generateBubblePaths tc tsn exBubble).bodyPath = false := by
  intro tc tsn
  refine ⟨rfl, ?_, ?_⟩
  · norm_num [generateBubblePaths, speechBody, findSpeechTail, midTailSpeechBubble,
      min_def, max_def]
  · rw [exBubble_bodyPath]
    decide

/-- C2 counterexample: for the 100 by 100 speech bubble whose tail tip is at
(50,160), the returned rectangle's bottom edge sits exactly at the tip
(y + height = 160), so the tip is not contained with 10 units of clearance
on every side. -/
theorem getOverallBbox_missing_bottom_padding :
    getOverallBbox protrudingTailBubble = ⟨-10, -10, 110, 170⟩ ∧
    ¬ (160 + 10 ≤ (getOverallBbox protrudingTailBubble).y +
        (getOverallBbox protrudingTailBubble).height) := by
  have h : getOverallBbox protrudingTailBubble = ⟨-10, -10, 110, 170⟩ := by
    norm_num [getOverallBbox, protrudingTailBubble, protrudingTailPart, partExtend,
      min_def, max_def]
  refine ⟨h, ?_⟩
  rw [h]
  norm_num

/-- C2 amended: getOverallBbox is the union of the base rectangle, tail tips
and dot extents with 10 units of padding applied to the left and top sides
only; consequently a tail tip is contained with at least 10 units of
clearance on the left and top and with at least 0 units (plain containment)
on the right and bottom. -/
theorem getOverallBbox_contains_tail_tip_amended (b : Bubble) (t : SpeechTailPart)
    (hmem : BubblePart.speechTail t ∈ b.parts) :
    (getOverallBbox b).x ≤ t.tipX - 10 ∧ (getOverallBbox b).y ≤ t.tipY - 10 ∧
    t.tipX ≤ (getOverallBbox b).x + (getOverallBbox b).width ∧
    t.tipY ≤ (getOverallBbox b).y + (getOverallBbox b).height := by
  have hc := foldl_partExtend_covers_tip b.parts ⟨0, b.width, 0, b.height⟩ t hmem
  unfold getOverallBbox
  dsimp only
  refine ⟨by linarith [hc.1], by linarith [hc.2.2.1], by linarith [hc.2.1],
    by linarith [hc.2.2.2]⟩

/-- C2 witness: the amended containment evaluated on the protruding-tail
bubble. -/
theorem getOverallBbox_contains_tail_tip_amended_witness :
    (getOverallBbox protrudingTailBubble).x ≤ protrudingTailPart.tipX - 10 ∧
    (getOverallBbox protrudingTailBubble).y ≤ protrudingTailPart.tipY - 10 ∧
    protrudingTailPart.tipX ≤ (getOverallBbox protrudingTailBubble).x +
      (getOverallBbox protrudingTailBubble).width ∧
    protrudingTailPart.tipY ≤ (getOverallBbox protrudingTailBubble).y +
      (getOverallBbox protrudingTailBubble).height :=
  getOverallBbox_contains_tail_tip_amended protrudingTailBubble protrudingTailPart
    (List.mem_singleton.mpr rfl)

/-- C3: the wrapping step does not place every parsed word: a newline-marker
segment makes the source execute `return` inside the segment loop, so on the
parsed form of "ab&lt;br&gt;cd" the word "cd" appears in no output line — the
wrapped output contains only "ab". -/
theorem drawRichText_newline_drops_words :
    parseRichText "ab<br>cd" dsArial16 =
      [⟨"ab", dsArial16, 0, 0⟩, ⟨"\n", dsArial16, 0, 0⟩, ⟨"cd", dsArial16, 0, 0⟩] ∧
    lineWords (drawRichTextLines mcConst10 (fun _ => none) "" "ab<br>cd" 300 none
      dsArial16) = ["ab"] := by
  constructor
  · decide
  · simp +decide [drawRichTextLines, parseRichText, parseLinesAux, parseSegOf, splitBr,
      splitBrAux, matchBr, brTail, stripTags, stripTagsAux, jsTrim, dsArial16, mcConst10,
      measureSegs, fontStrOf, wrapSegments, wrapSegsAux, wrapWord, splitWs, splitWsAux,
      lineWords, jsOrQ, emptyLine]

/-- C6 counterexample: for a 100 by 100 speech-family bubble the fit target
returned by getTextBounds is the fixed-padding rectangle 80 by 80 at (10,10),
not the 83 percent fraction recorded in SAFE_TEXT_ZONES. -/
theorem getTextBounds_speech_not_fractional :
    getTextBounds squareSpeechBubble = ⟨80, 80, 10, 10⟩ ∧
    (getTextBounds squareSpeechBubble).width ≠
      (SAFE_TEXT_ZONES squareSpeechBubble.type).widthFactor * squareSpeechBubble.width := by
  have h : getTextBounds squareSpeechBubble = ⟨80, 80, 10, 10⟩ := by
    simp +decide [getTextBounds, squareSpeechBubble]
    norm_num
  refine ⟨h, ?_⟩
  rw [h]
  norm_num [squareSpeechBubble, SAFE_TEXT_ZONES]

/-- C6 amended: for every speech-family bubble the fit target is the
fixed-padding rectangle (width - 20 by height - 20 at (10,10)) — the same
zone shape as descriptive and text-only bubbles; only Shout and Thought use
their fractional zones, even though SAFE_TEXT_ZONES records 0.83 by 0.83 for
the speech families. -/
theorem getTextBounds_speech_fixed_padding (b : Bubble)
    (hb : b.type = .SpeechDown ∨ b.type = .SpeechUp ∨ b.type = .SpeechDownMinimal ∨
      b.type = .SpeechUpMinimal) :
    getTextBounds b = ⟨b.width - 10 * 2, b.height - 10 * 2, 10, 10⟩ ∧
    SAFE_TEXT_ZONES b.type = ⟨0.83, 0.83⟩ := by
  rcases hb with h | h | h | h <;>
    simp +decide [getTextBounds, SAFE_TEXT_ZONES, h]

/-- C6 witness: the amended statement evaluated on the square speech bubble. -/
theorem getTextBounds_speech_fixed_padding_witness :
    getTextBounds squareSpeechBubble =
      ⟨squareSpeechBubble.width - 10 * 2, squareSpeechBubble.height - 10 * 2, 10, 10⟩ ∧
    SAFE_TEXT_ZONES squareSpeechBubble.type = ⟨0.83, 0.83⟩ :=
  getTextBounds_speech_fixed_padding squareSpeechBubble (Or.inl rfl)

/-- C7 counterexample: with default font size 12, a single size-30 segment
"aa bb cc" whose words measure 60 (plus space) and an available width of 100
below vertical position 20 and 200 above it, the source wrap produces three
lines while the claimed closed-line-height advance would produce two, so the
cursor does not advance by the closed line's height. -/
theorem wrapSegments_advance_not_closed_height :
    (wrapSegments mcConst60 "f" 100 (some widthAtStep) dsArial12 [segThreeWords]).length = 3 ∧
    (wrapSegmentsClosedHeight mcConst60 "f" 100 (some widthAtStep) dsArial12
      [segThreeWords]).length = 2 ∧
    wrapSegments mcConst60 "f" 100 (some widthAtStep) dsArial12 [segThreeWords] ≠
      wrapSegmentsClosedHeight mcConst60 "f" 100 (some widthAtStep) dsArial12
        [segThreeWords] := by
  have h : (wrapSegments mcConst60 "f" 100 (some widthAtStep) dsArial12
      [segThreeWords]).length = 3 ∧
      (wrapSegmentsClosedHeight mcConst60 "f" 100 (some widthAtStep) dsArial12
        [segThreeWords]).length = 2 := by
    simp +decide [wrapSegments, wrapSegsAux, wrapWord, wrapSegmentsClosedHeight,
      wrapSegsClosedHeightAux, wrapWordClosedHeight, segThreeWords, styleSize30,
      dsArial12, mcConst60, widthAtStep, splitWs, splitWsAux, jsOrQ, emptyLine,
      max_def]
    norm_num
  refine ⟨h.1, h.2, fun he => ?_⟩
  rw [he, h.2] at h
  exact absurd h.1 (by norm_num)

/-- C7 amended: whenever appending a word would exceed the available width
and the current line is non-empty, the line is closed and the vertical
cursor advances by the default style's font size (the freshly reset line's
zero height falls back to the default), for every segment sequence. -/
theorem wrapSegments_eq_defaultAdvance (mc : String → String → ℚ) (ctxFont : String)
    (width : ℚ) (widthAt : Option (ℚ → ℚ)) (defaultStyle : TextStyle)
    (segs : List TextSegment) :
    wrapSegments mc ctxFont width widthAt defaultStyle segs =
      wrapSegmentsDefaultAdvance mc ctxFont width widthAt defaultStyle segs := by
  have hword : ∀ d style sh,
      wrapWord mc ctxFont width widthAt d style sh =
        wrapWordDefaultAdvance mc ctxFont width widthAt d style sh := by
    intro d style sh
    funext st word
    simp [wrapWord, wrapWordDefaultAdvance, jsOrQ, emptyLine]
  have haux : ∀ (d : ℚ) (l : List TextSegment) (st : WrapState),
      wrapSegsAux mc ctxFont width widthAt d l st =
        wrapSegsDefaultAdvanceAux mc ctxFont width widthAt d l st := by
    intro d l
    induction l with
    | nil => intro st; rfl
    | cons seg rest ih =>
      intro st
      by_cases hn : seg.text = "\n"
      · simp [wrapSegsAux, wrapSegsDefaultAdvanceAux, hn]
      · simp only [wrapSegsAux, wrapSegsDefaultAdvanceAux, if_neg hn, hword, ih]
  exact haux defaultStyle.fontSize segs _

/-- C8 counterexample: for the worked example the bounding box bottom edge is
at 160, not at least 170 as the claim requires. -/
theorem exBubble_bbox_bottom_not_170 :
    ¬ (170 ≤ (getOverallBbox exBubble).y + (getOverallBbox exBubble).height) := by
  rw [exBubble_bbox]
  norm_num

/-- C8 amended: for the worked example, the outline interrupts the bottom
edge between x = 80 and x = 120 (the token sequence exToks exhibits the cut:
the edge stops at `L 120,100`, the tail sweeps to the tip (80,160), returns
to (80,100), and the edge resumes towards x = 50 = r), and the bounding box
satisfies y + height ≥ 160 (the tip's own extent; the extra 10 of the
original claim is not present since the box is padded on top only). -/
theorem exBubble_tail_cut_and_bbox_amended :
    ∀ tc tsn : ℚ → ℚ,
      (generateBubblePaths tc tsn exBubble).bodyPath = exToks ∧
      160 ≤ (getOverallBbox exBubble).y + (getOverallBbox exBubble).height := by
  intro tc tsn
  refine ⟨exBubble_bodyPath tc tsn, ?_⟩
  rw [exBubble_bbox]
  norm_num

/-- C10: for every bubble whose archetype is not Thought, the returned
partsCircles list is empty, regardless of the parts collection. -/
theorem partsCircles_empty_unless_thought (tc tsn : ℚ → ℚ) (b : Bubble)
    (hb : b.type ≠ .Thought) :
    (generateBubblePaths tc tsn b).partsCircles = [] := by
  unfold generateBubblePaths
  split_ifs with h1 h2 h3 <;> first | rfl | exact absurd h2 hb

/-- C10 witness: a Shout bubble carrying a thought-dot part still surfaces
no circles. -/
theorem partsCircles_empty_unless_thought_witness :
    (generateBubblePaths trigZero trigZero shoutWithDotBubble).partsCircles = [] :=
  partsCircles_empty_unless_thought trigZero trigZero shoutWithDotBubble (by decide)

/-! Properties of the font-size search loop. -/

/-- The fit test at a given size, exactly as evaluated inside the loop. -/
def fitsAt (m : MeasureOracle) (text fontFamily : String) (bounds : TextBounds)
    (fs : ℚ) : Bool :=
  fitCheck bounds (measureText m text fontFamily fs bounds.width)

/-- A successful loop result fits, is at least minFontSize and at most the
starting size. -/
theorem calcLoop_some (m : MeasureOracle) (text fam : String) (bounds : TextBounds)
    (minFS : ℚ) :
    ∀ (fuel : ℕ) (s r : ℚ), calcLoop m text fam bounds minFS s fuel = some r →
      fitsAt m text fam bounds r = true ∧ minFS ≤ r ∧ r ≤ s := by
  intro fuel
  induction fuel with
  | zero => intro s r h; exact absurd h (by simp [calcLoop])
  | succ n ih =>
    intro s r h
    simp only [calcLoop] at h
    by_cases hle : minFS ≤ s
    · rw [if_pos hle] at h
      by_cases hfit : fitCheck bounds (measureText m text fam s bounds.width) = true
      · rw [if_pos hfit] at h
        cases h
        exact ⟨hfit, hle, le_refl s⟩
      · rw [if_neg hfit] at h
        obtain ⟨h1, h2, h3⟩ := ih _ r h
        exact ⟨h1, h2, h3.trans (max_le hle (by linarith))⟩
    · rw [if_neg hle] at h
      cases h

/-- When the current size already fits (and is admissible), the loop stops
there immediately. -/
theorem calcLoop_found (m : MeasureOracle) (text fam : String) (bounds : TextBounds)
    (minFS s : ℚ) (n : ℕ) (hle : minFS ≤ s)
    (hfit : fitsAt m text fam bounds s = true) :
    calcLoop m text fam bounds minFS s (n + 1) = some s := by
  have hfit' : fitCheck bounds (measureText m text fam s bounds.width) = true := hfit
  simp only [calcLoop]
  rw [if_pos hle, if_pos hfit']

/-- When minFontSize itself does not fit, the loop spins at minFontSize and
returns nothing. -/
theorem calcLoop_stuck (m : MeasureOracle) (text fam : String) (bounds : TextBounds)
    (minFS : ℚ) (hfit : fitsAt m text fam bounds minFS = false) :
    ∀ fuel : ℕ, calcLoop m text fam bounds minFS minFS fuel = none := by
  intro fuel
  induction fuel with
  | zero => rfl
  | succ n ih =>
    have hfit' : ¬ fitCheck bounds (measureText m text fam minFS bounds.width) = true := by
      intro hc
      rw [fitsAt] at hfit
      rw [hc] at hfit
      cases hfit
    simp only [calcLoop]
    rw [if_pos (le_refl minFS), if_neg hfit', max_eq_left (by linarith : minFS - 1 ≤ minFS)]
    exact ih

/-- C4 amended: the returned scaleFactor is fontSize divided by the bubble's
font size, the returned size is minFontSize or lies between minFontSize and
min(bubble.fontSize, maxFontSize), and fits is true exactly when the block
measured at the returned size fits both dimensions — except in the
minFontSize fallback, where only the measured height is compared and a
width overflow is ignored. -/
theorem calculateOptimalFontSize_characterization (m : MeasureOracle) (text : String)
    (b : Bubble) (fam : String) (minFS maxFS : ℚ) :
    (calculateOptimalFontSize m text b fam minFS maxFS).scaleFactor =
      (calculateOptimalFontSize m text b fam minFS maxFS).fontSize / b.fontSize ∧
    (calculateOptimalFontSize m text b fam minFS maxFS).fits =
      (fitsAt m text fam (getTextBounds b)
        (calculateOptimalFontSize m text b fam minFS maxFS).fontSize ||
       (decide ((calculateOptimalFontSize m text b fam minFS maxFS).fontSize = minFS) &&
        decide ((measureText m text fam minFS (getTextBounds b).width).height ≤
          (getTextBounds b).height))) ∧
    ((calculateOptimalFontSize m text b fam minFS maxFS).fontSize = minFS ∨
     (minFS ≤ (calculateOptimalFontSize m text b fam minFS maxFS).fontSize ∧
      (calculateOptimalFontSize m text b fam minFS maxFS).fontSize ≤ min b.fontSize maxFS)) := by
  unfold calculateOptimalFontSize
  dsimp only
  cases h : calcLoop m text fam (getTextBounds b) minFS (min b.fontSize maxFS) 20 with
  | some fs =>
    obtain ⟨h1, h2, h3⟩ := calcLoop_some m text fam (getTextBounds b) minFS 20 _ fs h
    dsimp only
    rw [h1]
    exact ⟨rfl, by simp, Or.inr ⟨h2, h3⟩⟩
  | none =>
    dsimp only
    refine ⟨rfl, ?_, Or.inl rfl⟩
    have hz : fitsAt m text fam (getTextBounds b) minFS =
        (decide ((measureText m text fam minFS (getTextBounds b).width).height ≤
          (getTextBounds b).height) &&
         optLeQ (measureText m text fam minFS (getTextBounds b).width).width
           (getTextBounds b).width) := rfl
    rw [hz]
    cases hA : decide ((measureText m text fam minFS (getTextBounds b).width).height ≤
        (getTextBounds b).height) <;>
      cases hB : optLeQ (measureText m text fam minFS (getTextBounds b).width).width
          (getTextBounds b).width <;>
        simp [hA, hB]

/-- The returned font size is the loop's result or-else minFontSize. -/
theorem calcOptimal_fontSize_spec (m : MeasureOracle) (text : String) (b : Bubble)
    (fam : String) (minFS maxFS : ℚ) :
    (calculateOptimalFontSize m text b fam minFS maxFS).fontSize =
      (calcLoop m text fam (getTextBounds b) minFS (min b.fontSize maxFS) 20).getD minFS := by
  unfold calculateOptimalFontSize
  dsimp only
  cases calcLoop m text fam (getTextBounds b) minFS (min b.fontSize maxFS) 20 <;> rfl

/-- Re-running the search on a copy carrying the size it just computed
returns that same size. -/
theorem calcOptimal_refit (m : MeasureOracle) (text : String) (b : Bubble) (fam : String) :
    (calculateOptimalFontSize m text
      { b with fontSize := (calculateOptimalFontSize m text b fam 8 40).fontSize }
      fam 8 40).fontSize = (calculateOptimalFontSize m text b fam 8 40).fontSize := by
  have hspec := calcOptimal_fontSize_spec m text b fam 8 40
  have hb : getTextBounds
      { b with fontSize := (calculateOptimalFontSize m text b fam 8 40).fontSize } =
      getTextBounds b := rfl
  have hfs : ({ b with fontSize := (calculateOptimalFontSize m text b fam 8 40).fontSize } :
      Bubble).fontSize = (calculateOptimalFontSize m text b fam 8 40).fontSize := rfl
  cases h : calcLoop m text fam (getTextBounds b) 8 (min b.fontSize 40) 20 with
  | some fs =>
    rw [h] at hspec
    simp only [Option.getD_some] at hspec
    obtain ⟨h1, h2, h3⟩ := calcLoop_some m text fam (getTextBounds b) 8 20 _ fs h
    have hfound := calcLoop_found m text fam (getTextBounds b) 8 fs 19 h2 h1
    norm_num at hfound
    rw [calcOptimal_fontSize_spec, hb, hfs, hspec,
      min_eq_left (h3.trans (min_le_right _ _)), hfound, Option.getD_some]
  | none =>
    rw [h] at hspec
    simp only [Option.getD_none] at hspec
    rw [calcOptimal_fontSize_spec, hb, hfs, hspec, min_eq_left (by norm_num : (8:ℚ) ≤ 40)]
    cases hf : fitsAt m text fam (getTextBounds b) 8 with
    | true =>
      have hfound := calcLoop_found m text fam (getTextBounds b) 8 8 19 (le_refl _) hf
      norm_num at hfound
      rw [hfound, Option.getD_some]
    | false =>
      rw [calcLoop_stuck m text fam (getTextBounds b) 8 hf 20, Option.getD_none]

/-- C5: autoFitBubbleText is idempotent for every bubble, font family and
deterministic measurement oracle (the embedding is pure, so the input record
is never mutated; re-applying the function returns the same bubble). -/
theorem autoFitBubbleText_idempotent (m : MeasureOracle) (b : Bubble) (fam : String) :
    autoFitBubbleText m (autoFitBubbleText m b fam) fam = autoFitBubbleText m b fam := by
  by_cases hg : b.type = .TextOnly ∨ b.text = "" ∨ b.text = "Votre texte ici"
  · have h1 : autoFitBubbleText m b fam = b := by
      rw [autoFitBubbleText, if_pos hg]
    rw [h1]
    exact h1
  · by_cases hr : (calculateOptimalFontSize m b.text b fam 8 40).fontSize = b.fontSize
    · have h1 : autoFitBubbleText m b fam = b := by
        rw [autoFitBubbleText, if_neg hg]
        dsimp only
        rw [if_pos hr]
      rw [h1]
      exact h1
    · have h1 : autoFitBubbleText m b fam =
          { b with fontSize := (calculateOptimalFontSize m b.text b fam 8 40).fontSize } := by
        rw [autoFitBubbleText, if_neg hg]
        dsimp only
        rw [if_neg hr]
      rw [h1]
      have hg' : ¬ (({ b with fontSize :=
          (calculateOptimalFontSize m b.text b fam 8 40).fontSize } : Bubble).type = .TextOnly ∨
          ({ b with fontSize :=
            (calculateOptimalFontSize m b.text b fam 8 40).fontSize } : Bubble).text = "" ∨
          ({ b with fontSize :=
            (calculateOptimalFontSize m b.text b fam 8 40).fontSize } : Bubble).text =
            "Votre texte ici") := hg
      rw [autoFitBubbleText, if_neg hg']
      dsimp only
      rw [if_pos (calcOptimal_refit m b.text b fam)]

/-- A length-proportional measurement oracle. -/
def lenOracle : MeasureOracle := fun _ fs t => fs * (t.length : ℚ)

/-- A 40 by 100 descriptive bubble whose font size is below minFontSize. -/
def smallFontBubble : Bubble :=
  ⟨"b4", .Descriptive, 0, 0, 40, 100, 1, "Arial", 5, "#000", "#000", "hello", []⟩

/-- C4 counterexample: on smallFontBubble with the length-proportional oracle
the search returns fits = true from the minFontSize fallback although the
measured width (40) exceeds the safe zone width (20): fits is not equivalent
to fitting in both dimensions at the returned size. -/
theorem calculateOptimalFontSize_fits_width_unchecked :
    (calculateOptimalFontSize lenOracle "hello" smallFontBubble "Arial" 8 40).fits = true ∧
    optLeQ (measureText lenOracle "hello" "Arial"
      (calculateOptimalFontSize lenOracle "hello" smallFontBubble "Arial" 8 40).fontSize
      (getTextBounds smallFontBubble).width).width
      (getTextBounds smallFontBubble).width = false := by
  simp +decide [calculateOptimalFontSize, calcLoop, measureText, getTextBounds,
    smallFontBubble, lenOracle, greedyLines, greedyStep, testLineOf, splitWs, splitWsAux,
    stripTags, stripTagsAux, jsMaxQ, optLeQ, fitCheck, min_def, max_def]
  norm_num [show "hello".length = 5 from rfl]

/-! Monotonicity of the greedy wrap in the available width and of the
font-size search in the bubble size (claim C9).  The measurement oracle is
assumed additive over string concatenation and nonnegative; these are the
properties every length-proportional metric satisfies and they tie the
oracle's values on test lines to its values on single words. -/

/-- Relation between the wider run's current line and the narrower run's:
equal, or empty, or a suffix along a space boundary. -/
def SpSuffix (a b : String) : Prop :=
  a = b ∨ a = "" ∨ ∃ p, b = p ++ " " ++ a

/-- The wider run's wrap state is ahead of the narrower one's: strictly
fewer completed lines, or equally many with a space-suffix current line. -/
def StAhead (s s' : List String × String) : Prop :=
  s'.1.length < s.1.length ∨ (s'.1.length = s.1.length ∧ SpSuffix s'.2 s.2)

/-- An additive measure vanishes on the empty string. -/
theorem m1_empty_eq_zero (m1 : String → ℚ)
    (hadd : ∀ a b, m1 (a ++ b) = m1 a + m1 b) : m1 "" = 0 := by
  have h := hadd "" ""
  have he : ("" ++ "" : String) = "" := rfl
  rw [he] at h
  linarith

/-- A space-suffix measures no more than the string it suffixes. -/
theorem spSuffix_measure_le (m1 : String → ℚ)
    (hadd : ∀ a b, m1 (a ++ b) = m1 a + m1 b) (hnn : ∀ a, 0 ≤ m1 a)
    {a b : String} (h : SpSuffix a b) : m1 a ≤ m1 b := by
  rcases h with rfl | rfl | ⟨p, rfl⟩
  · exact le_refl _
  · rw [m1_empty_eq_zero m1 hadd]
    exact hnn b
  · rw [hadd (p ++ " ") a]
    have := hnn (p ++ " ")
    linarith

/-- A nonempty space-suffix forces the larger string nonempty. -/
theorem spSuffix_ne_empty {a b : String} (h : SpSuffix a b) (ha : a ≠ "") : b ≠ "" := by
  rcases h with rfl | rfl | ⟨p, rfl⟩
  · exact ha
  · exact absurd rfl ha
  · intro hb
    have hlen : (p ++ " " ++ a).length = (0 : ℕ) := by
      rw [hb]
      rfl
    rw [String.length_append, String.length_append] at hlen
    have hsp : (" " : String).length = 1 := rfl
    omega

/-- A space-suffix of the empty string is empty. -/
theorem spSuffix_of_empty {a : String} (h : SpSuffix a "") : a = "" := by
  by_contra ha
  exact spSuffix_ne_empty h ha rfl

/-- Space-suffix is preserved by extending both current lines with the same
word. -/
theorem spSuffix_testLine {cur' cur : String} (h : SpSuffix cur' cur) (w : String) :
    SpSuffix (testLineOf cur' w) (testLineOf cur w) := by
  by_cases hc' : cur' = ""
  · subst hc'
    by_cases hc : cur = ""
    · subst hc
      exact Or.inl rfl
    · rw [testLineOf, testLineOf, if_pos hc]
      simp only [ne_eq, not_true_eq_false, if_false]
      exact Or.inr (Or.inr ⟨cur, rfl⟩)
  · have hc : cur ≠ "" := spSuffix_ne_empty h hc'
    rcases h with heq | he | ⟨p, hp⟩
    · rw [heq]
      exact Or.inl rfl
    · exact absurd he hc'
    · subst hp
      rw [testLineOf, testLineOf, if_pos hc', if_pos hc]
      refine Or.inr (Or.inr ⟨p, ?_⟩)
      simp [String.append_assoc]

/-- The word measures no more than the test line it lands in. -/
theorem word_le_testLine (m1 : String → ℚ)
    (hadd : ∀ a b, m1 (a ++ b) = m1 a + m1 b) (hnn : ∀ a, 0 ≤ m1 a)
    (cur w : String) : m1 w ≤ m1 (testLineOf cur w) := by
  rw [testLineOf]
  by_cases hc : cur ≠ ""
  · rw [if_pos hc, hadd (cur ++ " ") w]
    have := hnn (cur ++ " ")
    linarith
  · rw [if_neg hc]

/-- The current line measures no more than the test line extending it. -/
theorem cur_le_testLine (m1 : String → ℚ)
    (hadd : ∀ a b, m1 (a ++ b) = m1 a + m1 b) (hnn : ∀ a, 0 ≤ m1 a)
    (cur w : String) : m1 cur ≤ m1 (testLineOf cur w) := by
  rw [testLineOf]
  by_cases hc : cur ≠ ""
  · rw [if_pos hc, hadd (cur ++ " ") w, hadd cur " "]
    have h1 := hnn " "
    have h2 := hnn w
    linarith
  · rw [if_neg hc]
    push_neg at hc
    rw [hc, m1_empty_eq_zero m1 hadd]
    exact hnn w

/-- One greedy step preserves being ahead, for a wider available width. -/
theorem greedyStep_ahead (m1 : String → ℚ)
    (hadd : ∀ a b, m1 (a ++ b) = m1 a + m1 b) (hnn : ∀ a, 0 ≤ m1 a)
    {W W' : ℚ} (hW : W ≤ W') {s s' : List String × String}
    (h : StAhead s s') (w : String) :
    StAhead (greedyStep m1 W s w) (greedyStep m1 W' s' w) := by
  simp only [greedyStep]
  rcases h with hlt | ⟨heq, hsp⟩
  · by_cases o : W < m1 (testLineOf s.2 w) <;>
      by_cases o' : W' < m1 (testLineOf s'.2 w)
    · rw [if_pos o, if_pos o']
      have hn : (if s'.2 ≠ "" then s'.1 ++ [s'.2] else s'.1).length ≤
          (if s.2 ≠ "" then s.1 ++ [s.2] else s.1).length := by
        by_cases hc : s.2 = "" <;> by_cases hc' : s'.2 = "" <;>
          simp [hc, hc', List.length_append] <;> omega
      rcases lt_or_eq_of_le hn with hlt2 | heq2
      · exact Or.inl hlt2
      · exact Or.inr ⟨heq2, Or.inl rfl⟩
    · rw [if_pos o, if_neg o']
      refine Or.inl ?_
      by_cases hc : s.2 = "" <;> simp [hc, List.length_append] <;> omega
    · rw [if_neg o, if_pos o']
      have hn : (if s'.2 ≠ "" then s'.1 ++ [s'.2] else s'.1).length ≤ s.1.length := by
        by_cases hc' : s'.2 = "" <;> simp [hc', List.length_append] <;> omega
      rcases lt_or_eq_of_le hn with hlt2 | heq2
      · exact Or.inl hlt2
      · refine Or.inr ⟨heq2, ?_⟩
        rw [testLineOf]
        by_cases hc : s.2 ≠ ""
        · rw [if_pos hc]
          exact Or.inr (Or.inr ⟨s.2, rfl⟩)
        · rw [if_neg hc]
          exact Or.inl rfl
    · rw [if_neg o, if_neg o']
      exact Or.inl hlt
  · have ht := spSuffix_testLine hsp w
    have hm := spSuffix_measure_le m1 hadd hnn ht
    by_cases o : W < m1 (testLineOf s.2 w)
    · by_cases o' : W' < m1 (testLineOf s'.2 w)
      · rw [if_pos o, if_pos o']
        by_cases hc' : s'.2 = ""
        · by_cases hc : s.2 = ""
          · refine Or.inr ⟨?_, Or.inl rfl⟩
            simp [hc, hc', heq]
          · refine Or.inl ?_
            simp only [hc', ne_eq, not_true_eq_false, if_false, if_pos (show s.2 ≠ "" from hc)]
            simp [List.length_append]
            omega
        · have hc : s.2 ≠ "" := spSuffix_ne_empty hsp hc'
          refine Or.inr ⟨?_, Or.inl rfl⟩
          simp [hc, hc', List.length_append, heq]
      · rw [if_pos o, if_neg o']
        by_cases hc : s.2 = ""
        · have hc' : s'.2 = "" := by
            have h2 := hsp
            rw [hc] at h2
            exact spSuffix_of_empty h2
          refine Or.inr ⟨?_, ?_⟩
          · simp [hc, heq]
          · rw [testLineOf, if_neg (by simp [hc'])]
            exact Or.inl rfl
        · refine Or.inl ?_
          simp [hc, List.length_append]
          omega
    · have no' : ¬ W' < m1 (testLineOf s'.2 w) := by
        intro hcon
        exact o (lt_of_le_of_lt hW (lt_of_lt_of_le hcon hm))
      rw [if_neg o, if_neg no']
      exact Or.inr ⟨heq, ht⟩

/-- Folding the words preserves being ahead. -/
theorem foldl_greedyStep_ahead (m1 : String → ℚ)
    (hadd : ∀ a b, m1 (a ++ b) = m1 a + m1 b) (hnn : ∀ a, 0 ≤ m1 a)
    {W W' : ℚ} (hW : W ≤ W') :
    ∀ (ws : List String) (s s' : List String × String), StAhead s s' →
      StAhead (ws.foldl (greedyStep m1 W) s) (ws.foldl (greedyStep m1 W') s') := by
  intro ws
  induction ws with
  | nil => intro s s' h; exact h
  | cons a rest ih =>
    intro s s' h
    exact ih _ _ (greedyStep_ahead m1 hadd hnn hW h a)

/-- A wider available width never produces more wrapped lines. -/
theorem greedyLines_length_mono (m1 : String → ℚ)
    (hadd : ∀ a b, m1 (a ++ b) = m1 a + m1 b) (hnn : ∀ a, 0 ≤ m1 a)
    {W W' : ℚ} (hW : W ≤ W') (ws : List String) :
    (greedyLines m1 W' ws).length ≤ (greedyLines m1 W ws).length := by
  have h := foldl_greedyStep_ahead m1 hadd hnn hW ws ([], "") ([], "")
    (Or.inr ⟨rfl, Or.inl rfl⟩)
  rw [greedyLines, greedyLines]
  rcases h with hlt | ⟨heq, hsp⟩
  · by_cases hc : (ws.foldl (greedyStep m1 W) ([], "")).2 = "" <;>
      by_cases hc' : (ws.foldl (greedyStep m1 W') ([], "")).2 = "" <;>
        simp [hc, hc', List.length_append] <;> omega
  · by_cases hc' : (ws.foldl (greedyStep m1 W') ([], "")).2 = ""
    · by_cases hc : (ws.foldl (greedyStep m1 W) ([], "")).2 = "" <;>
        simp [hc, hc', List.length_append] <;> omega
    · have hc : (ws.foldl (greedyStep m1 W) ([], "")).2 ≠ "" := spSuffix_ne_empty hsp hc'
      simp [hc, hc', List.length_append, heq]

/-- Invariant of the greedy fold: when every word fits the width, every
completed line and the current line fit it too. -/
theorem greedy_fold_inv (m1 : String → ℚ)
    (hadd : ∀ a b, m1 (a ++ b) = m1 a + m1 b) (hnn : ∀ a, 0 ≤ m1 a) (W' : ℚ) :
    ∀ (ws : List String), (∀ x ∈ ws, m1 x ≤ W') →
      ∀ (s : List String × String), (∀ ℓ ∈ s.1, m1 ℓ ≤ W') →
        (m1 s.2 ≤ W' ∨ s.2 = "") →
        (∀ ℓ ∈ (ws.foldl (greedyStep m1 W') s).1, m1 ℓ ≤ W') ∧
        (m1 (ws.foldl (greedyStep m1 W') s).2 ≤ W' ∨
          (ws.foldl (greedyStep m1 W') s).2 = "") := by
  intro ws
  induction ws with
  | nil => intro _ s h1 h2; exact ⟨h1, h2⟩
  | cons a rest ih =>
    intro hws s h1 h2
    have ha : m1 a ≤ W' := hws a (List.mem_cons_self _ _)
    have hrest : ∀ x ∈ rest, m1 x ≤ W' := fun x hx => hws x (List.mem_cons_of_mem _ hx)
    refine ih hrest (greedyStep m1 W' s a) ?_ ?_
    · simp only [greedyStep]
      by_cases o : W' < m1 (testLineOf s.2 a)
      · rw [if_pos o]
        by_cases hc : s.2 = ""
        · simpa [hc] using h1
        · simp only [hc, ne_eq, not_false_eq_true, if_true]
          intro ℓ hℓ
          rcases List.mem_append.mp hℓ with hin | hin
          · exact h1 ℓ hin
          · rw [List.mem_singleton.mp hin]
            rcases h2 with h2 | h2
            · exact h2
            · exact absurd h2 hc
      · rw [if_neg o]
        exact h1
    · simp only [greedyStep]
      by_cases o : W' < m1 (testLineOf s.2 a)
      · rw [if_pos o]
        exact Or.inl ha
      · rw [if_neg o]
        exact Or.inl (le_of_not_lt o)

/-- When every word fits the width, every wrapped line fits it. -/
theorem greedyLines_le_of_words (m1 : String → ℚ)
    (hadd : ∀ a b, m1 (a ++ b) = m1 a + m1 b) (hnn : ∀ a, 0 ≤ m1 a) (W' : ℚ)
    (ws : List String) (hws : ∀ x ∈ ws, m1 x ≤ W') :
    ∀ ℓ ∈ greedyLines m1 W' ws, m1 ℓ ≤ W' := by
  obtain ⟨h1, h2⟩ := greedy_fold_inv m1 hadd hnn W' ws hws ([], "")
    (by intro ℓ hℓ; cases hℓ) (Or.inr rfl)
  rw [greedyLines]
  by_cases hc : (ws.foldl (greedyStep m1 W') ([], "")).2 = ""
  · simpa [hc] using h1
  · simp only [hc, ne_eq, not_false_eq_true, if_true]
    intro ℓ hℓ
    rcases List.mem_append.mp hℓ with hin | hin
    · exact h1 ℓ hin
    · rw [List.mem_singleton.mp hin]
      rcases h2 with h2 | h2
      · exact h2
      · exact absurd h2 hc

/-- A width is accounted for by the wrap state: dominated by a completed
line or by the current line. -/
def BddBy (m1 : String → ℚ) (s : List String × String) (x : ℚ) : Prop :=
  (∃ ℓ ∈ s.1, x ≤ m1 ℓ) ∨ x ≤ m1 s.2

/-- One greedy step preserves the accounting. -/
theorem bddBy_step (m1 : String → ℚ)
    (hadd : ∀ a b, m1 (a ++ b) = m1 a + m1 b) (hnn : ∀ a, 0 ≤ m1 a)
    (W : ℚ) (s : List String × String) (w : String) (x : ℚ) (h : BddBy m1 s x) :
    BddBy m1 (greedyStep m1 W s w) x := by
  simp only [BddBy, greedyStep] at h ⊢
  by_cases o : W < m1 (testLineOf s.2 w)
  · rw [if_pos o]
    by_cases hc : s.2 = ""
    · rcases h with ⟨ℓ, hℓ, hx⟩ | hx
      · exact Or.inl ⟨ℓ, by simpa [hc] using hℓ, hx⟩
      · refine Or.inr ?_
        rw [hc, m1_empty_eq_zero m1 hadd] at hx
        exact hx.trans (hnn w)
    · rcases h with ⟨ℓ, hℓ, hx⟩ | hx
      · exact Or.inl ⟨ℓ, by simp [hc, List.mem_append]; exact Or.inl hℓ, hx⟩
      · exact Or.inl ⟨s.2, by simp [hc], hx⟩
  · rw [if_neg o]
    rcases h with ⟨ℓ, hℓ, hx⟩ | hx
    · exact Or.inl ⟨ℓ, hℓ, hx⟩
    · exact Or.inr (hx.trans (cur_le_testLine m1 hadd hnn s.2 w))

/-- The word just processed is accounted for. -/
theorem bddBy_step_self (m1 : String → ℚ)
    (hadd : ∀ a b, m1 (a ++ b) = m1 a + m1 b) (hnn : ∀ a, 0 ≤ m1 a)
    (W : ℚ) (s : List String × String) (w : String) :
    BddBy m1 (greedyStep m1 W s w) (m1 w) := by
  simp only [BddBy, greedyStep]
  by_cases o : W < m1 (testLineOf s.2 w)
  · rw [if_pos o]
    exact Or.inr (le_refl _)
  · rw [if_neg o]
    exact Or.inr (word_le_testLine m1 hadd hnn s.2 w)

/-- Folding preserves the accounting. -/
theorem bddBy_fold (m1 : String → ℚ)
    (hadd : ∀ a b, m1 (a ++ b) = m1 a + m1 b) (hnn : ∀ a, 0 ≤ m1 a) (W : ℚ) :
    ∀ (ws : List String) (s : List String × String) (x : ℚ), BddBy m1 s x →
      BddBy m1 (ws.foldl (greedyStep m1 W) s) x := by
  intro ws
  induction ws with
  | nil => intro s x h; exact h
  | cons a rest ih =>
    intro s x h
    exact ih _ x (bddBy_step m1 hadd hnn W s a x h)

/-- Every word of the input is accounted for by the final state. -/
theorem bddBy_words (m1 : String → ℚ)
    (hadd : ∀ a b, m1 (a ++ b) = m1 a + m1 b) (hnn : ∀ a, 0 ≤ m1 a) (W : ℚ) :
    ∀ (ws : List String) (s : List String × String) (x : String), x ∈ ws →
      BddBy m1 (ws.foldl (greedyStep m1 W) s) (m1 x) := by
  intro ws
  induction ws with
  | nil => intro s x hx; cases hx
  | cons a rest ih =>
    intro s x hx
    rcases List.mem_cons.mp hx with rfl | hx
    · exact bddBy_fold m1 hadd hnn W rest _ _ (bddBy_step_self m1 hadd hnn W s x)
    · exact ih _ x hx

/-- Every input word is dominated by a wrapped line, or measures at most 0. -/
theorem word_le_some_line (m1 : String → ℚ)
    (hadd : ∀ a b, m1 (a ++ b) = m1 a + m1 b) (hnn : ∀ a, 0 ≤ m1 a)
    (W : ℚ) (ws : List String) (x : String) (hx : x ∈ ws) :
    (∃ ℓ ∈ greedyLines m1 W ws, m1 x ≤ m1 ℓ) ∨ m1 x ≤ 0 := by
  have h := bddBy_words m1 hadd hnn W ws ([], "") x hx
  rw [greedyLines]
  rcases h with ⟨ℓ, hℓ, hle⟩ | hle
  · refine Or.inl ⟨ℓ, ?_, hle⟩
    by_cases hc : (ws.foldl (greedyStep m1 W) ([], "")).2 = "" <;>
      simp [hc, List.mem_append, hℓ]
  · by_cases hc : (ws.foldl (greedyStep m1 W) ([], "")).2 = ""
    · rw [hc, m1_empty_eq_zero m1 hadd] at hle
      exact Or.inr hle
    · refine Or.inl ⟨(ws.foldl (greedyStep m1 W) ([], "")).2, ?_, hle⟩
      simp [hc]

/-- Every member of a list is dominated by its JavaScript max. -/
theorem jsMaxQ_ge_mem : ∀ (l : List ℚ) (x : ℚ), x ∈ l →
    ∃ q, jsMaxQ l = some q ∧ x ≤ q := by
  intro l
  induction l with
  | nil => intro x hx; cases hx
  | cons a rest ih =>
    intro x hx
    rcases List.mem_cons.mp hx with rfl | hx
    · cases hr : jsMaxQ rest with
      | none => exact ⟨x, by simp [jsMaxQ, hr], le_refl x⟩
      | some y => exact ⟨max x y, by simp [jsMaxQ, hr], le_max_left _ _⟩
    · obtain ⟨q, hq, hle⟩ := ih x hx
      refine ⟨max a q, by simp [jsMaxQ, hq], hle.trans (le_max_right _ _)⟩

/-- A uniform bound on the list bounds its JavaScript max. -/
theorem optLeQ_jsMaxQ (c : ℚ) : ∀ (l : List ℚ), (∀ x ∈ l, x ≤ c) →
    optLeQ (jsMaxQ l) c = true := by
  intro l
  induction l with
  | nil => intro _; rfl
  | cons a rest ih =>
    intro hl
    have ha := hl a (List.mem_cons_self _ _)
    have hr := ih (fun x hx => hl x (List.mem_cons_of_mem _ hx))
    cases hmax : jsMaxQ rest with
    | none => simp [jsMaxQ, hmax, optLeQ, ha]
    | some y =>
      rw [hmax] at hr
      simp only [optLeQ, decide_eq_true_eq] at hr
      simp [jsMaxQ, hmax, optLeQ, max_le ha hr]

/-- A block that fits a safe zone also fits any wider-and-taller zone, at
the same nonnegative font size, for an additive nonnegative oracle.  Note
the wrapping itself changes with the zone width: the wider zone wraps
against its own width. -/
theorem fitsAt_mono_zone (m : MeasureOracle)
    (hadd : ∀ fam fs a b, m fam fs (a ++ b) = m fam fs a + m fam fs b)
    (hnn : ∀ fam fs a, 0 ≤ m fam fs a)
    (text fam : String) (bounds bounds' : TextBounds) (s : ℚ) (hs : 0 ≤ s)
    (hW : bounds.width ≤ bounds'.width) (hH : bounds.height ≤ bounds'.height)
    (hfit : fitsAt m text fam bounds s = true) :
    fitsAt m text fam bounds' s = true := by
  have hadd1 : ∀ a b, m fam s (a ++ b) = m fam s a + m fam s b := hadd fam s
  have hnn1 : ∀ a, 0 ≤ m fam s a := hnn fam s
  rw [fitsAt, fitCheck, measureText] at hfit ⊢
  dsimp only at hfit ⊢
  rw [Bool.and_eq_true] at hfit ⊢
  obtain ⟨hfh, hfw⟩ := hfit
  have hcount := greedyLines_length_mono (m fam s) hadd1 hnn1 hW
    (splitWs (stripTags text))
  constructor
  · rw [decide_eq_true_eq] at hfh ⊢
    have hnonneg : (0 : ℚ) ≤ s * 1.4 := by
      have : (0 : ℚ) ≤ (1.4 : ℚ) := by norm_num
      exact mul_nonneg hs this
    calc ((greedyLines (m fam s) bounds'.width (splitWs (stripTags text))).length : ℚ) *
          (s * 1.4)
        ≤ ((greedyLines (m fam s) bounds.width (splitWs (stripTags text))).length : ℚ) *
          (s * 1.4) := by
          apply mul_le_mul_of_nonneg_right _ hnonneg
          exact_mod_cast hcount
      _ ≤ bounds.height := hfh
      _ ≤ bounds'.height := hH
  · by_cases hl : greedyLines (m fam s) bounds.width (splitWs (stripTags text)) = []
    · have h0 : (greedyLines (m fam s) bounds'.width (splitWs (stripTags text))).length = 0 := by
        rw [hl] at hcount
        simpa using hcount
      rw [List.length_eq_zero.mp h0]
      rfl
    · obtain ⟨ℓ0, hℓ0⟩ := List.exists_mem_of_ne_nil _ hl
      obtain ⟨q, hq, _⟩ := jsMaxQ_ge_mem
        ((greedyLines (m fam s) bounds.width (splitWs (stripTags text))).map (m fam s))
        (m fam s ℓ0) (List.mem_map_of_mem _ hℓ0)
      rw [hq] at hfw
      rw [optLeQ] at hfw
      rw [decide_eq_true_eq] at hfw
      have hall : ∀ ℓ ∈ greedyLines (m fam s) bounds.width (splitWs (stripTags text)),
          m fam s ℓ ≤ bounds.width := by
        intro ℓ hℓ
        obtain ⟨q2, hq2, hle2⟩ := jsMaxQ_ge_mem
          ((greedyLines (m fam s) bounds.width (splitWs (stripTags text))).map (m fam s))
          (m fam s ℓ) (List.mem_map_of_mem _ hℓ)
        rw [hq] at hq2
        cases hq2
        exact hle2.trans hfw
      have hW0 : (0 : ℚ) ≤ bounds.width := (hnn1 ℓ0).trans (hall ℓ0 hℓ0)
      have hwords : ∀ x ∈ splitWs (stripTags text), m fam s x ≤ bounds'.width := by
        intro x hx
        rcases word_le_some_line (m fam s) hadd1 hnn1 bounds.width
            (splitWs (stripTags text)) x hx with ⟨ℓ, hℓ, hle⟩ | hle
        · exact hle.trans ((hall ℓ hℓ).trans hW)
        · exact hle.trans (hW0.trans hW)
      apply optLeQ_jsMaxQ
      intro x hx
      obtain ⟨ℓ, hℓ, rfl⟩ := List.mem_map.mp hx
      exact greedyLines_le_of_words (m fam s) hadd1 hnn1 bounds'.width
        (splitWs (stripTags text)) hwords ℓ hℓ

/-- When the fit test only gets easier, the search loop from the same start
never returns a smaller size. -/
theorem calcLoop_mono (m : MeasureOracle) (text fam : String)
    (bounds bounds' : TextBounds) (minFS : ℚ)
    (himp : ∀ t, minFS ≤ t → fitsAt m text fam bounds t = true →
      fitsAt m text fam bounds' t = true) :
    ∀ (fuel : ℕ) (s r : ℚ), calcLoop m text fam bounds minFS s fuel = some r →
      ∃ r', calcLoop m text fam bounds' minFS s fuel = some r' ∧ r ≤ r' := by
  intro fuel
  induction fuel with
  | zero => intro s r h; exact absurd h (by simp [calcLoop])
  | succ n ih =>
    intro s r h
    simp only [calcLoop] at h ⊢
    by_cases hle : minFS ≤ s
    · rw [if_pos hle] at h ⊢
      by_cases hf : fitCheck bounds (measureText m text fam s bounds.width) = true
      · rw [if_pos hf] at h
        cases h
        have hf' : fitCheck bounds' (measureText m text fam s bounds'.width) = true :=
          himp s hle hf
        rw [if_pos hf']
        exact ⟨s, rfl, le_refl s⟩
      · rw [if_neg hf] at h
        by_cases hf' : fitCheck bounds' (measureText m text fam s bounds'.width) = true
        · rw [if_pos hf']
          obtain ⟨_, _, h3⟩ := calcLoop_some m text fam bounds minFS n _ r h
          exact ⟨s, rfl, h3.trans (max_le hle (by linarith))⟩
        · rw [if_neg hf']
          exact ih _ r h
    · rw [if_neg hle] at h
      cases h

/-- The safe-zone factors are nonnegative for every archetype. -/
theorem zone_factors_nonneg (t : BubbleType) :
    0 ≤ (SAFE_TEXT_ZONES t).widthFactor ∧ 0 ≤ (SAFE_TEXT_ZONES t).heightFactor := by
  cases t <;> constructor <;> norm_num [SAFE_TEXT_ZONES]

/-- A strictly larger bubble has a wider and taller safe text zone. -/
theorem getTextBounds_mono (b : Bubble) (w h : ℚ) (hw : b.width ≤ w) (hh : b.height ≤ h) :
    (getTextBounds b).width ≤ (getTextBounds { b with width := w, height := h }).width ∧
    (getTextBounds b).height ≤ (getTextBounds { b with width := w, height := h }).height := by
  have htype : ({ b with width := w, height := h } : Bubble).type = b.type := rfl
  rw [getTextBounds, getTextBounds, htype]
  by_cases ht : b.type = .Shout ∨ b.type = .Thought
  · rw [if_pos ht, if_pos ht]
    dsimp only
    obtain ⟨h1, h2⟩ := zone_factors_nonneg b.type
    exact ⟨mul_le_mul_of_nonneg_right hw h1, mul_le_mul_of_nonneg_right hh h2⟩
  · rw [if_neg ht, if_neg ht]
    dsimp only
    constructor <;> linarith

/-- C9: with the same text, family and size bounds (any nonnegative
minimum), calculateOptimalFontSize applied to a strictly larger bubble never
returns a strictly smaller fontSize, for every measurement oracle that is
additive over concatenation and nonnegative. -/
theorem calculateOptimalFontSize_monotone (m : MeasureOracle)
    (hadd : ∀ fam fs a b, m fam fs (a ++ b) = m fam fs a + m fam fs b)
    (hnn : ∀ fam fs a, 0 ≤ m fam fs a)
    (text fam : String) (b : Bubble) (w h : ℚ) (hw : b.width < w) (hh : b.height < h)
    (minFS maxFS : ℚ) (hmin : 0 ≤ minFS) :
    (calculateOptimalFontSize m text b fam minFS maxFS).fontSize ≤
    (calculateOptimalFontSize m text { b with width := w, height := h }
      fam minFS maxFS).fontSize := by
  obtain ⟨hbW, hbH⟩ := getTextBounds_mono b w h (le_of_lt hw) (le_of_lt hh)
  have himp : ∀ t, minFS ≤ t →
      fitsAt m text fam (getTextBounds b) t = true →
      fitsAt m text fam (getTextBounds { b with width := w, height := h }) t = true :=
    fun t hmt => fitsAt_mono_zone m hadd hnn text fam _ _ t (hmin.trans hmt) hbW hbH
  rw [calcOptimal_fontSize_spec, calcOptimal_fontSize_spec]
  have hfs : ({ b with width := w, height := h } : Bubble).fontSize = b.fontSize := rfl
  rw [hfs]
  cases hloop : calcLoop m text fam (getTextBounds b) minFS (min b.fontSize maxFS) 20 with
  | some r =>
    obtain ⟨r', hr', hle⟩ := calcLoop_mono m text fam (getTextBounds b)
      (getTextBounds { b with width := w, height := h }) minFS himp 20 _ r hloop
    rw [hr']
    simpa using hle
  | none =>
    cases hloop' : calcLoop m text fam
        (getTextBounds { b with width := w, height := h }) minFS
        (min b.fontSize maxFS) 20 with
    | some r' =>
      obtain ⟨_, h2, _⟩ := calcLoop_some m text fam _ minFS 20 _ r' hloop'
      simpa using h2
    | none => simp

/-- An oracle proportional to string length with clamped font size. -/
def clampedLenOracle : MeasureOracle := fun _ fs t => max fs 0 * (t.length : ℚ)

/-- A small descriptive bubble for the monotonicity witness. -/
def monoSmallBubble : Bubble :=
  ⟨"b9", .Descriptive, 0, 0, 40, 40, 1, "Arial", 10, "#000", "#000", "hi", []⟩

/-- C9 witness: the monotone bound evaluated at the clamped length oracle
and a 40 by 40 versus 50 by 60 descriptive bubble. -/
theorem calculateOptimalFontSize_monotone_witness :
    (calculateOptimalFontSize clampedLenOracle "hi" monoSmallBubble "Arial" 8 40).fontSize ≤
    (calculateOptimalFontSize clampedLenOracle "hi"
      { monoSmallBubble with width := 50, height := 60 } "Arial" 8 40).fontSize :=
  calculateOptimalFontSize_monotone clampedLenOracle
    (fun fam fs a b => by
      simp only [clampedLenOracle, String.length_append]
      push_cast
      ring)
    (fun fam fs a => by
      simp only [clampedLenOracle]
      have h1 : (0 : ℚ) ≤ max fs 0 := le_max_right fs 0
      have h2 : (0 : ℚ) ≤ (a.length : ℚ) := by positivity
      exact mul_nonneg h1 h2)
    "hi" "Arial" monoSmallBubble 50 60 (by norm_num [monoSmallBubble])
    (by norm_num [monoSmallBubble]) 8 40 (by norm_num)

end BubbleEditor
